import Mathlib

/-!
Verification of the attack-tree tool's feasibility model and parser.

The definitions below are a shallow embedding of the Rust sources:
  * `src/src/model/mod.rs` (and the identical trait impls in
    `src/src/model/or_node.rs`, `src/att/src/model/mod.rs`): the feasibility
    algebra (`FeasibilityAssessment`) and the three node variants with their
    `feasibility` / `feasibility_value` methods;
  * `src/att/src/parser/mod.rs`: the character-level state machine
    `AttackTreeParser`.

Rust `u32` values are modelled as `Nat`; the only places where the 32-bit
width is observable are `u32::from_str` (range check in `parseU32`) and the
wrapping sum of `FeasibilityAssessment::sum`, modelled with `% 2 ^ 32`.
Rust panics (`unwrap` on `None`/`Err`, `panic!` in `Leaf::add_child`) are
modelled explicitly as a `panicked` outcome, distinct from `Result` errors.
-/

/-- Modulus of Rust's `u32` type. -/
def U32LIM : Nat := 2 ^ 32

/-- The error enum `TreeError` from `src/src/model/mod.rs`. -/
inductive TreeError where
  | AssessmentVectorMismatch : TreeError
deriving DecidableEq, Repr

/-- Rust `FeasiblityCriterion { name, id }` (sic, source spelling) from the model. -/
structure FeasiblityCriterion where
  name : String
  id : String
deriving DecidableEq, Repr

/-- Rust `FeasibilityCriteria` is a vector of criteria; we use the list directly. -/
abbrev FeasibilityCriteria := List FeasiblityCriterion

/-- Rust `FeasibilityAssessment`: a criteria definition together with the
feasibility vector (`FeasibilityVector` is a plain `Vec<Option<u32>>`). -/
structure FeasibilityAssessment where
  definition : FeasibilityCriteria
  assessments : List (Option Nat)
deriving DecidableEq, Repr

/-- Rust `FeasibilityAssessment::new`: fails with `AssessmentVectorMismatch` iff
the vector length differs from the definition length. -/
def FeasibilityAssessment.new (definition : FeasibilityCriteria)
    (assessments : List (Option Nat)) : Except TreeError FeasibilityAssessment :=
  if assessments.length ≠ definition.length then
    .error .AssessmentVectorMismatch
  else
    .ok ⟨definition, assessments⟩

/-- Rust `FeasibilityAssessment::sum`: sum of the entries with `None ↦ 0`.
The Rust sum is computed in `u32`; release-mode wrapping is `% 2 ^ 32`. -/
def FeasibilityAssessment.sum (fa : FeasibilityAssessment) : Nat :=
  ((fa.assessments.map (fun v => v.getD 0)).sum) % U32LIM

/-- The `maxima` vector computed inside `component_wise_max`: position-wise
maximum with `None` read as `0`, the result always a present value. -/
def cwMaxVec (u v : List (Option Nat)) : List (Option Nat) :=
  (u.zip v).map (fun p => some (max (p.1.getD 0) (p.2.getD 0)))

/-- Rust `FeasibilityAssessment::component_wise_max`. -/
def FeasibilityAssessment.component_wise_max (fa other : FeasibilityAssessment) :
    Except TreeError FeasibilityAssessment :=
  if fa.assessments.length ≠ other.assessments.length then
    .error .AssessmentVectorMismatch
  else
    FeasibilityAssessment.new fa.definition (cwMaxVec fa.assessments other.assessments)

/-- A tree of `FeasibleStep` trait objects: the three variants
`Leaf` / `OrNode` / `AndNode` with their constructor fields
(`id`, `description`, children; the parent back-reference is only relevant
for the parser and is modelled there, in the arena). -/
inductive FeasibleStep where
  | leaf (id : Nat) (description : String) (criteria : FeasibilityAssessment) : FeasibleStep
  | orNode (id : Nat) (description : String) (children : List FeasibleStep) : FeasibleStep
  | andNode (id : Nat) (description : String) (children : List FeasibleStep) : FeasibleStep

/-- Outcome of a call to `feasibility()`: an `Ok` assessment, a recoverable
`Err(TreeError)`, or a Rust panic (`unwrap` failure). -/
inductive FRes where
  | ok : FeasibilityAssessment → FRes
  | err : TreeError → FRes
  | panicked : FRes
deriving DecidableEq, Repr

/-- The lazy `map(|s| s.feasibility().unwrap())` of `OrNode::feasibility`:
panics (`none`) as soon as some child result is not `Ok`. -/
def unwrapAll : List FRes → Option (List FeasibilityAssessment)
  | [] => some []
  | .ok a :: rest => (unwrapAll rest).map (fun l => a :: l)
  | .err _ :: _ => none
  | .panicked :: _ => none

/-- Rust's `Iterator::min_by_key` keyed on `sum`: the first element attaining
the minimum is kept (later elements replace the accumulator only when
strictly smaller). -/
def minBySumFirst : List FeasibilityAssessment → Option FeasibilityAssessment
  | [] => none
  | f :: fs => some (fs.foldl (fun acc x => if x.sum < acc.sum then x else acc) f)

/-- The `filter_map(|s| s.feasibility().ok())` of `AndNode::feasibility`:
keeps the `Ok` assessments, dropping recoverable errors. -/
def collectOks : List FRes → List FeasibilityAssessment
  | [] => []
  | .ok a :: rest => a :: collectOks rest
  | .err _ :: rest => collectOks rest
  | .panicked :: rest => collectOks rest

/-- Whether some child's own `feasibility()` call panicked (which aborts the
whole `filter_map` pass in Rust). -/
def anyPanicked : List FRes → Bool
  | [] => false
  | .panicked :: _ => true
  | _ :: rest => anyPanicked rest

/-- The `reduce(|a, b| a.component_wise_max(&b).unwrap())` fold: `none`
models the panic when some `component_wise_max` fails. -/
def cwReduce : FeasibilityAssessment → List FeasibilityAssessment → Option FeasibilityAssessment
  | a, [] => some a
  | a, b :: rest =>
    match a.component_wise_max b with
    | .ok c => cwReduce c rest
    | .error _ => none

/-- Rust `OrNode::feasibility` body after the empty-children check. -/
def orFeas (rs : List FRes) : FRes :=
  match unwrapAll rs with
  | none => .panicked
  | some fs =>
    match minBySumFirst fs with
    | some m => .ok m
    | none => .panicked

/-- Rust `AndNode::feasibility` body after the empty-children check. -/
def andFeas (rs : List FRes) : FRes :=
  if anyPanicked rs then .panicked
  else
    match collectOks rs with
    | [] => .panicked
    | a :: rest =>
      match cwReduce a rest with
      | some c => .ok c
      | none => .panicked

mutual

/-- Rust `FeasibleStep::feasibility` for the three variants.
`Leaf` re-validates its stored assessment through `FeasibilityAssessment::new`;
`OrNode`/`AndNode` first fail on an empty child list, then apply the
min-by-sum rule resp. the component-wise-max fold to the children's results. -/
def feasibility : FeasibleStep → FRes
  | .leaf _ _ c =>
    match FeasibilityAssessment.new c.definition c.assessments with
    | .ok a => .ok a
    | .error e => .err e
  | .orNode _ _ children =>
    if children.isEmpty then .err .AssessmentVectorMismatch
    else orFeas (feasList children)
  | .andNode _ _ children =>
    if children.isEmpty then .err .AssessmentVectorMismatch
    else andFeas (feasList children)

/-- The children's `feasibility()` results, in stored child order. -/
def feasList : List FeasibleStep → List FRes
  | [] => []
  | s :: rest => feasibility s :: feasList rest

end

/-- Rust `FeasibleStep::feasibility_value` (trait default method): the sum on
`Ok`, `0` on `Err`; a panic inside `feasibility` propagates (`none`). -/
def feasibility_value (s : FeasibleStep) : Option Nat :=
  match feasibility s with
  | .ok f => some f.sum
  | .err _ => some 0
  | .panicked => none

/-! ### Parser embedding (`src/att/src/parser/mod.rs`) -/

/-- Rust `TreeFileError` from the parser module. -/
inductive TreeFileError where
  | FileReadError : TreeFileError
  | SyntaxError : Nat → TreeFileError
deriving DecidableEq, Repr

/-- Rust `ParserState` from the parser module. -/
inductive ParserState where
  | DeterminingIndentationLevel
  | InTitle
  | DeterminingNodeType
  | InAssessmentName
  | InAssessmentValue
  | SkipToLineEnd
deriving DecidableEq, Repr

/-- Rust `NodeType` from the parser module (the field is write-only in the source,
kept for faithfulness). -/
inductive NodeType where
  | Unknown
  | AndNode
  | OrNode
  | Leaf
deriving DecidableEq, Repr

/-- Which variant an allocated node is. -/
inductive AKind where
  | and
  | or
  | leaf
deriving DecidableEq, Repr

/-- One heap-allocated node (`Rc<dyn FeasibleStep>`); the arena index plays
the role of the `Rc` pointer, `parent`/`children` are arena indices. -/
structure ArenaNode where
  id : Nat
  kind : AKind
  description : String
  parent : Option Nat
  children : List Nat
  criteria : Option FeasibilityAssessment
deriving DecidableEq, Repr

/-- An internal failure of a parser step: a recoverable syntax error, or a
Rust panic (`unwrap` on `None`, `Leaf::add_child`). -/
inductive PF where
  | syntaxError : Nat → PF
  | panicked : PF
deriving DecidableEq, Repr

/-- The `AttackTreeParser` struct, plus the node arena (Rust's heap) and the
`generate_id` counter (`OBJECT_COUNTER`, here counted per parse run). -/
structure AttackTreeParser where
  state : ParserState
  title : List Char
  assessment_value : List Char
  assessment_title : List Char
  parsed_assessments : List (String × Nat)
  current_node_type : NodeType
  indentation_counter : Nat
  previous_indentation : Nat
  current_indentation : Nat
  current_node : Option Nat
  last_added_node : Option Nat
  arena : List ArenaNode
  next_id : Nat
deriving DecidableEq, Repr

/-- Rust `AttackTreeParser::new()`. -/
def AttackTreeParser.new : AttackTreeParser where
  state := .DeterminingIndentationLevel
  title := []
  assessment_value := []
  assessment_title := []
  parsed_assessments := []
  current_node_type := .Unknown
  indentation_counter := 0
  previous_indentation := 0
  current_indentation := 0
  current_node := none
  last_added_node := none
  arena := []
  next_id := 0

/-- Rust `u32::from_str`: optional leading `+`, at least one ASCII digit,
nothing else, and the value must fit in 32 bits. -/
def parseU32 (s : List Char) : Option Nat :=
  let cs := match s with
    | '+' :: rest => rest
    | cs => cs
  if cs.isEmpty then none
  else if cs.all Char.isDigit then
    let v := cs.foldl (fun acc c => acc * 10 + (c.toNat - 48)) 0
    if v < U32LIM then some v else none
  else none

/-- Rust `str::trim` on a character buffer (leading and trailing whitespace
removed). -/
def trimChars (cs : List Char) : List Char :=
  ((cs.dropWhile Char.isWhitespace).reverse.dropWhile Char.isWhitespace).reverse

/-- Rust `HashMap::insert`: replaces the value of an existing key, otherwise adds
the pair. -/
def insertAssoc (m : List (String × Nat)) (k : String) (v : Nat) : List (String × Nat) :=
  match m with
  | [] => [(k, v)]
  | (k', v') :: rest => if k' = k then (k, v) :: rest else (k', v') :: insertAssoc rest k v

/-- Rust `HashMap::get`. -/
def lookupAssoc (m : List (String × Nat)) (k : String) : Option Nat :=
  match m with
  | [] => none
  | (k', v') :: rest => if k' = k then some v' else lookupAssoc rest k

/-- Rust `AttackTreeParser::set_state`: switches the state and clears the buffer
associated with the new state. -/
def set_state (p : AttackTreeParser) (s : ParserState) : AttackTreeParser :=
  let p := { p with state := s }
  match s with
  | .DeterminingIndentationLevel => { p with indentation_counter := 0 }
  | .InTitle => { p with title := [] }
  | .DeterminingNodeType => p
  | .InAssessmentName => { p with assessment_title := [] }
  | .InAssessmentValue => { p with assessment_value := [] }
  | .SkipToLineEnd => p

/-- Rust `AttackTreeParser::commit_assessment`: parse the accumulated value as a
`u32` (`SyntaxError(1)` on failure) and insert it under the trimmed
accumulated name. -/
def commit_assessment (p : AttackTreeParser) : Except PF AttackTreeParser :=
  match parseU32 p.assessment_value with
  | none => .error (.syntaxError 1)
  | some v =>
    .ok { p with
            parsed_assessments :=
              insertAssoc p.parsed_assessments (String.mk (trimChars p.assessment_title)) v,
            assessment_value := [],
            assessment_title := [] }

/-- Rust `AttackTreeParser::build_leaf`: project the accumulated assessments onto
the schema's criterion order and build the `Leaf` (the `unwrap` on
`FeasibilityAssessment::new` is a panic, modelled as `.error .panicked`). -/
def build_leaf (p : AttackTreeParser) (definition : FeasibilityCriteria) :
    Except PF ArenaNode :=
  match FeasibilityAssessment.new definition
      (definition.map (fun c => lookupAssoc p.parsed_assessments c.name)) with
  | .error _ => .error .panicked
  | .ok fa =>
    .ok { id := p.next_id
          kind := .leaf
          description := String.mk p.title
          parent := p.current_node
          children := []
          criteria := some fa }

/-- First placement adjustment of `add_node`: on deeper indentation the
"current" pointer descends to the last-added node
(`self.last_added_node.as_ref().unwrap()`). -/
def resolve_descend (p : AttackTreeParser) (cur : Nat) : Except PF Nat :=
  if p.current_indentation > p.previous_indentation then
    match p.last_added_node with
    | some l => .ok l
    | none => .error .panicked
  else .ok cur

/-- Second placement adjustment of `add_node`: on shallower indentation the
"current" pointer ascends to its parent
(`self.current_node.as_ref().unwrap().get_parent().unwrap()`). -/
def resolve_ascend (p : AttackTreeParser) (cur1 : Nat) : Except PF Nat :=
  if p.current_indentation < p.previous_indentation then
    match p.arena.get? cur1 with
    | some n =>
      match n.parent with
      | some par => .ok par
      | none => .error .panicked
    | none => .error .panicked
  else .ok cur1

/-- The `add_child` call at the end of `add_node`: appends the new node's
index to the resolved current node's children (`panic!` when that node is a
`Leaf`) and stores the new node in the arena (at index `arena.length`). -/
def attach_child (p : AttackTreeParser) (node : ArenaNode) (cur2 : Nat) :
    Except PF AttackTreeParser :=
  match p.arena.get? cur2 with
  | none => .error .panicked
  | some target =>
    if target.kind = .leaf then .error .panicked
    else
      .ok { p with
              arena := (p.arena.set cur2
                { target with children := target.children ++ [p.arena.length] }) ++ [node],
              current_node := some cur2,
              last_added_node := some p.arena.length }

/-- Rust `AttackTreeParser::add_node`: the placement algorithm. The new node is
appended to the arena at index `arena.length`; the `unwrap`s on
`last_added_node` / `get_parent()` and `Leaf::add_child`'s `panic!`
become `.error .panicked`. -/
def add_node (p : AttackTreeParser) (node : ArenaNode) : Except PF AttackTreeParser :=
  match p.current_node with
  | none =>
    .ok { p with arena := p.arena ++ [node],
                 current_node := some p.arena.length,
                 last_added_node := some p.arena.length }
  | some cur =>
    match resolve_descend p cur with
    | .error e => .error e
    | .ok cur1 =>
      match resolve_ascend p cur1 with
      | .error e => .error e
      | .ok cur2 => attach_child p node cur2

/-- One character of the parser's state machine (the `match self.state`
inside `AttackTreeParser::parse`). -/
def step (definition : FeasibilityCriteria) (p : AttackTreeParser) (c : Char) :
    Except PF AttackTreeParser :=
  match p.state with
  | .InTitle =>
    if c = ';' then .ok (set_state p .DeterminingNodeType)
    else .ok { p with title := p.title ++ [c] }
  | .DeterminingNodeType =>
    if c = '&' then
      match add_node { p with current_node_type := .AndNode, next_id := p.next_id + 1 }
        { id := p.next_id, kind := .and, description := String.mk p.title,
          parent := p.current_node, children := [], criteria := none } with
      | .error e => .error e
      | .ok p' => .ok (set_state p' .SkipToLineEnd)
    else if c = '|' then
      match add_node { p with current_node_type := .OrNode, next_id := p.next_id + 1 }
        { id := p.next_id, kind := .or, description := String.mk p.title,
          parent := p.current_node, children := [], criteria := none } with
      | .error e => .error e
      | .ok p' => .ok (set_state p' .SkipToLineEnd)
    else if c ≠ ' ' then
      let p' := set_state { p with current_node_type := .Leaf } .InAssessmentName
      .ok { p' with assessment_title := p'.assessment_title ++ [c] }
    else .ok p
  | .SkipToLineEnd =>
    if c = '\n' then .ok (set_state p .DeterminingIndentationLevel)
    else .ok p
  | .DeterminingIndentationLevel =>
    if c = ' ' then .ok { p with indentation_counter := p.indentation_counter + 1 }
    else if c = '\n' then .ok (set_state p .DeterminingIndentationLevel)
    else
      let p' := { p with previous_indentation := p.current_indentation,
                         current_indentation := p.indentation_counter }
      let p'' := set_state p' .InTitle
      .ok { p'' with title := [c] }
  | .InAssessmentName =>
    if c = '=' then .ok (set_state p .InAssessmentValue)
    else .ok { p with assessment_title := p.assessment_title ++ [c] }
  | .InAssessmentValue =>
    if c = ',' then
      match commit_assessment p with
      | .error e => .error e
      | .ok p' => .ok (set_state p' .InAssessmentName)
    else if c = '\n' then
      match commit_assessment p with
      | .error e => .error e
      | .ok p1 =>
        match build_leaf p1 definition with
        | .error e => .error e
        | .ok node =>
          match add_node { p1 with next_id := p1.next_id + 1 } node with
          | .error e => .error e
          | .ok p2 => .ok (set_state p2 .DeterminingIndentationLevel)
    else .ok { p with assessment_value := p.assessment_value ++ [c] }

/-- The character loop of `AttackTreeParser::parse`. -/
def stepAll (definition : FeasibilityCriteria) (p : AttackTreeParser) :
    List Char → Except PF AttackTreeParser
  | [] => .ok p
  | c :: cs =>
    match step definition p c with
    | .error e => .error e
    | .ok p' => stepAll definition p' cs

/-- The root-resolution loop: follow `get_parent()` until a node with no
parent; `fuel = arena.length` suffices because a parent's index is always
smaller than its child's. -/
def walkUp (arena : List ArenaNode) : Nat → Nat → Nat
  | 0, i => i
  | fuel + 1, i =>
    match arena.get? i with
    | none => i
    | some n =>
      match n.parent with
      | none => i
      | some j => walkUp arena fuel j

/-- Overall outcome of `AttackTreeParser::parse`: the final arena with the
root index, a `TreeFileError`, or a panic. -/
inductive ParseOutcome where
  | ok : List ArenaNode → Nat → ParseOutcome
  | err : TreeFileError → ParseOutcome
  | panicked : ParseOutcome
deriving DecidableEq, Repr

/-- The end-of-stream handling of `AttackTreeParser::parse`: a pending
assessment value is still committed and the final leaf built and attached. -/
def finishEOS (definition : FeasibilityCriteria) (p : AttackTreeParser) :
    Except PF AttackTreeParser :=
  match p.state with
  | .InAssessmentValue =>
    match commit_assessment p with
    | .error e => .error e
    | .ok p1 =>
      match build_leaf p1 definition with
      | .error e => .error e
      | .ok node => add_node { p1 with next_id := p1.next_id + 1 } node
  | _ => .ok p

/-- Rust `AttackTreeParser::parse` on an already-read text: run the machine over
all characters, commit/attach a pending leaf at end of stream, then resolve
and return the root (`unwrap` of `current_node`: panic when `None`). -/
def parse (text : List Char) (definition : FeasibilityCriteria) : ParseOutcome :=
  match stepAll definition AttackTreeParser.new text with
  | .error (.syntaxError n) => .err (.SyntaxError n)
  | .error .panicked => .panicked
  | .ok p =>
    match finishEOS definition p with
    | .error (.syntaxError n) => .err (.SyntaxError n)
    | .error .panicked => .panicked
    | .ok p' =>
      match p'.current_node with
      | none => .panicked
      | some i => .ok p'.arena (walkUp p'.arena p'.arena.length i)

/-- Rebuild the `FeasibleStep` tree reachable from arena index `i`
(fuel-bounded recursion through the child indices). -/
def extract (arena : List ArenaNode) : Nat → Nat → Option FeasibleStep
  | 0, _ => none
  | fuel + 1, i => do
    let n ← arena.get? i
    match n.kind with
    | .leaf => do
      let c ← n.criteria
      pure (.leaf n.id n.description c)
    | .and => do
      let cs ← n.children.mapM (extract arena fuel)
      pure (.andNode n.id n.description cs)
    | .or => do
      let cs ← n.children.mapM (extract arena fuel)
      pure (.orNode n.id n.description cs)

/-- The two-criteria schema `[Eq, Kn]` used by the repository's tests. -/
def defnEqKn : FeasibilityCriteria := [⟨"Eq", "Eq"⟩, ⟨"Kn", "Kn"⟩]

/-- The three-criteria schema `[Eq, Kn, WO]` used by the AND tests. -/
def defnEqKnWO : FeasibilityCriteria := [⟨"Eq", "Eq"⟩, ⟨"Kn", "Kn"⟩, ⟨"WO", "WO"⟩]

/-- The three-line input of the claim about `"Break into house"` (two leaf
lines indented four spaces, no trailing newline). -/
def houseInput : List Char :=
  "Break into house;&\n    Observe when people are away; Kn=6, Eq=1\n    Pick lock; Kn=5, Eq=3".toList

/-- The arena the parser produces for `houseInput`. -/
def houseArena : List ArenaNode :=
  [ { id := 0, kind := .and, description := "Break into house",
      parent := none, children := [1, 2], criteria := none },
    { id := 1, kind := .leaf, description := "Observe when people are away",
      parent := some 0, children := [],
      criteria := some ⟨defnEqKn, [some 1, some 6]⟩ },
    { id := 2, kind := .leaf, description := "Pick lock",
      parent := some 0, children := [],
      criteria := some ⟨defnEqKn, [some 3, some 5]⟩ } ]

/-- The `FeasibleStep` tree extracted from `houseArena`. -/
def houseTree : FeasibleStep :=
  .andNode 0 "Break into house"
    [ .leaf 1 "Observe when people are away" ⟨defnEqKn, [some 1, some 6]⟩,
      .leaf 2 "Pick lock" ⟨defnEqKn, [some 3, some 5]⟩ ]

/-- A two-leaf input whose second leaf line mentions only `Kn`; the first
leaf line carries `Eq=1, Kn=6`. -/
def leakInput : List Char := "Top;&\n    A; Eq=1, Kn=6\n    B; Kn=5".toList

/-- The arena the parser produces for `leakInput`: the second leaf inherits
`Eq=1` from the first leaf's line. -/
def leakArena : List ArenaNode :=
  [ { id := 0, kind := .and, description := "Top",
      parent := none, children := [1, 2], criteria := none },
    { id := 1, kind := .leaf, description := "A",
      parent := some 0, children := [],
      criteria := some ⟨defnEqKn, [some 1, some 6]⟩ },
    { id := 2, kind := .leaf, description := "B",
      parent := some 0, children := [],
      criteria := some ⟨defnEqKn, [some 1, some 5]⟩ } ]

/-! ### Helper lemmas -/

theorem feasList_eq_map (l : List FeasibleStep) : feasList l = l.map feasibility := by
  induction l with
  | nil => rfl
  | cons s rest ih => simp [feasList, ih]

theorem unwrapAll_map_ok (as : List FeasibilityAssessment) :
    unwrapAll (as.map FRes.ok) = some as := by
  induction as with
  | nil => rfl
  | cons a rest ih => simp [unwrapAll, ih]

theorem unwrapAll_eq_none_of_mem {rs : List FRes} {r : FRes} (hr : r ∈ rs)
    (h : ∀ a, r ≠ FRes.ok a) : unwrapAll rs = none := by
  induction rs with
  | nil => cases hr
  | cons x rest ih =>
    rcases List.mem_cons.mp hr with hx | hmem
    · cases x with
      | ok a => exact absurd hx (h a)
      | err e => rfl
      | panicked => rfl
    · cases x with
      | ok a => simp [unwrapAll, ih hmem]
      | err e => rfl
      | panicked => rfl

theorem anyPanicked_map_ok (as : List FeasibilityAssessment) :
    anyPanicked (as.map FRes.ok) = false := by
  induction as with
  | nil => rfl
  | cons a rest ih => simpa [anyPanicked] using ih

theorem collectOks_map_ok (as : List FeasibilityAssessment) :
    collectOks (as.map FRes.ok) = as := by
  induction as with
  | nil => rfl
  | cons a rest ih => simp [collectOks, ih]

theorem feasList_eq_nil {l : List FeasibleStep} (h : feasList l = []) : l = [] := by
  cases l with
  | nil => rfl
  | cons s rest => simp [feasList] at h

/-! ### Claim theorems -/

/-- Claim C6: for every schema `S` and vector `v`,
`FeasibilityAssessment::new(S, v)` succeeds iff `length v = length S`, and
fails with `AssessmentVectorMismatch` otherwise. -/
theorem new_succeeds_iff_length_matches (S : FeasibilityCriteria)
    (v : List (Option Nat)) :
    ((∃ fa, FeasibilityAssessment.new S v = .ok fa) ↔ v.length = S.length) ∧
    (v.length ≠ S.length →
      FeasibilityAssessment.new S v = .error .AssessmentVectorMismatch) := by
  unfold FeasibilityAssessment.new
  constructor
  · constructor
    · rintro ⟨fa, h⟩
      by_contra hne
      simp [hne] at h
    · intro h
      exact ⟨⟨S, v⟩, by simp [h]⟩
  · intro h
    simp [h]

/-- Witness for C6 at concrete inputs: `new` succeeds on a length-2 vector
against the 2-criteria schema and fails on a length-3 vector. -/
theorem new_succeeds_iff_length_matches_witness :
    (∃ fa, FeasibilityAssessment.new defnEqKn [some 1, some 2] = .ok fa) ∧
    FeasibilityAssessment.new defnEqKn [some 1, some 2, some 3] =
      .error .AssessmentVectorMismatch :=
  ⟨(new_succeeds_iff_length_matches defnEqKn [some 1, some 2]).1.mpr (by decide),
   (new_succeeds_iff_length_matches defnEqKn [some 1, some 2, some 3]).2 (by decide)⟩

/-- Claim C8: AND and OR nodes with zero children fail `feasibility()` with
`AssessmentVectorMismatch`, and their `feasibility_value()` is `0`. -/
theorem empty_children_mismatch_and_value_zero (i j : Nat) (d e : String) :
    feasibility (.andNode i d []) = .err .AssessmentVectorMismatch ∧
    feasibility (.orNode j e []) = .err .AssessmentVectorMismatch ∧
    feasibility_value (.andNode i d []) = some 0 ∧
    feasibility_value (.orNode j e []) = some 0 :=
  ⟨rfl, rfl, rfl, rfl⟩

/-- Claim C4: with at least one child and every child's feasibility failing,
`AndNode::feasibility` does NOT return a recoverable `Result` error; the
`reduce(..).unwrap()` over the empty iterator of successful children panics.
Evaluated at the failing input: an `AndNode` whose only child is an empty
`OrNode`. -/
theorem and_node_all_children_failing_panics :
    feasibility (.andNode 0 "A" [.orNode 1 "B" []]) = .panicked := rfl

/-- Counterexample to claim C5 as stated: an `OrNode` with one succeeding
child (a leaf of sum 5) and one failing child (an empty `OrNode`) does not
proceed with the minimum-sum rule over the successful children — the
`map(|s| s.feasibility().unwrap())` panics instead. -/
theorem or_node_failing_child_cex :
    feasibility (.orNode 0 "or"
        [.leaf 1 "good" ⟨defnEqKn, [some 2, some 3]⟩, .orNode 2 "bad" []]) = .panicked ∧
    feasibility (.orNode 0 "or"
        [.leaf 1 "good" ⟨defnEqKn, [some 2, some 3]⟩, .orNode 2 "bad" []]) ≠
      .ok ⟨defnEqKn, [some 2, some 3]⟩ :=
  ⟨rfl, by decide⟩

/-- Claim C5 (amended): whenever any child's feasibility computation fails,
`OrNode::feasibility` panics (it never proceeds over only the successful
children); the recoverable zero-children error is separate (claim C8). -/
theorem or_node_panics_on_failing_child (i : Nat) (d : String)
    (children : List FeasibleStep)
    (h : ∃ s ∈ children, ∀ a, feasibility s ≠ FRes.ok a) :
    feasibility (.orNode i d children) = .panicked := by
  obtain ⟨s, hmem, hfail⟩ := h
  cases children with
  | nil => cases hmem
  | cons c cs =>
    have hun : unwrapAll (feasList (c :: cs)) = none := by
      apply unwrapAll_eq_none_of_mem (r := feasibility s) _ hfail
      rw [feasList_eq_map]
      exact List.mem_map_of_mem feasibility hmem
    show orFeas (feasList (c :: cs)) = .panicked
    rw [orFeas, hun]

/-- Witness for C5's amended theorem at a concrete input. -/
theorem or_node_panics_on_failing_child_witness :
    feasibility (.orNode 5 "w" [.andNode 6 "e" []]) = .panicked := by
  apply or_node_panics_on_failing_child
  refine ⟨.andNode 6 "e" [], List.mem_singleton.mpr rfl, ?_⟩
  have hred : feasibility (.andNode 6 "e" []) = .err .AssessmentVectorMismatch := rfl
  rw [hred]
  intro a hcontra
  exact FRes.noConfusion hcontra

/-- The accumulator fold of `min_by_key` (replace only on strictly smaller
key) returns an element of the list that attains the minimum key and is
preceded only by elements with strictly larger keys. -/
theorem foldl_min_first_split {α : Type} (f : α → Nat) (l : List α) (a : α) :
    ∃ pre post,
      a :: l = pre ++ (l.foldl (fun acc x => if f x < f acc then x else acc) a) :: post ∧
      (∀ x ∈ a :: l, f (l.foldl (fun acc x => if f x < f acc then x else acc) a) ≤ f x) ∧
      (∀ x ∈ pre, f (l.foldl (fun acc x => if f x < f acc then x else acc) a) < f x) := by
  induction l generalizing a with
  | nil =>
    exact ⟨[], [], rfl, by simp, by simp⟩
  | cons b t ih =>
    rw [List.foldl_cons]
    by_cases hba : f b < f a
    · simp only [if_pos hba]
      obtain ⟨pre, post, hsplit, hmin, hpre⟩ := ih b
      refine ⟨a :: pre, post, ?_, ?_, ?_⟩
      · rw [List.cons_append, ← hsplit]
      · intro x hx
        rcases List.mem_cons.mp hx with hxa | hx'
        · subst hxa
          exact le_of_lt (lt_of_le_of_lt (hmin b (List.mem_cons_self b t)) hba)
        · exact hmin x hx'
      · intro x hx
        rcases List.mem_cons.mp hx with hxa | hx'
        · subst hxa
          exact lt_of_le_of_lt (hmin b (List.mem_cons_self b t)) hba
        · exact hpre x hx'
    · simp only [if_neg hba]
      obtain ⟨pre, post, hsplit, hmin, hpre⟩ := ih a
      cases pre with
      | nil =>
        simp only [List.nil_append] at hsplit
        have hma : t.foldl (fun acc x => if f x < f acc then x else acc) a = a :=
          (List.cons.injEq _ _ _ _ ▸ hsplit).1.symm
        refine ⟨[], b :: t, ?_, ?_, by simp⟩
        · rw [List.nil_append, hma]
        · intro x hx
          rcases List.mem_cons.mp hx with hxa | hx'
          · subst hxa; rw [hma]
          · rcases List.mem_cons.mp hx' with hxb | hxt
            · subst hxb; rw [hma]; exact Nat.le_of_not_lt hba
            · exact hmin x (List.mem_cons_of_mem a hxt)
      | cons q pre' =>
        rw [List.cons_append] at hsplit
        have hq : q = a := ((List.cons.injEq _ _ _ _ ▸ hsplit).1).symm
        have ht : t = pre' ++ (t.foldl (fun acc x => if f x < f acc then x else acc) a) :: post :=
          (List.cons.injEq _ _ _ _ ▸ hsplit).2
        have hfa : f (t.foldl (fun acc x => if f x < f acc then x else acc) a) < f a := by
          have := hpre q (List.mem_cons_self q pre')
          rwa [hq] at this
        refine ⟨a :: b :: pre', post, ?_, ?_, ?_⟩
        · rw [List.cons_append, List.cons_append, ← ht]
        · intro x hx
          rcases List.mem_cons.mp hx with hxa | hx'
          · subst hxa; exact le_of_lt hfa
          · rcases List.mem_cons.mp hx' with hxb | hxt
            · subst hxb
              exact le_of_lt (lt_of_lt_of_le hfa (Nat.le_of_not_lt hba))
            · exact hmin x (List.mem_cons_of_mem a hxt)
        · intro x hx
          rcases List.mem_cons.mp hx with hxa | hx'
          · subst hxa; exact hfa
          · rcases List.mem_cons.mp hx' with hxb | hxp
            · subst hxb
              exact lt_of_lt_of_le hfa (Nat.le_of_not_lt hba)
            · exact hpre x (List.mem_cons_of_mem q hxp)

/-- Claim C1: when every child of an `OrNode` computes its feasibility
successfully (child assessments `as`, in stored child order), `feasibility`
returns the assessment with the smallest sum, and on ties the first child in
stored order wins: the returned assessment splits `as` as `pre ++ m :: post`
with every earlier child's sum strictly larger and every child's sum at
least `m.sum`. -/
theorem or_node_selects_first_min_sum (i : Nat) (d : String)
    (children : List FeasibleStep) (as : List FeasibilityAssessment)
    (hok : feasList children = as.map FRes.ok) (hne : children ≠ []) :
    ∃ pre m post,
      as = pre ++ m :: post ∧
      feasibility (.orNode i d children) = .ok m ∧
      (∀ x ∈ as, m.sum ≤ x.sum) ∧
      (∀ x ∈ pre, m.sum < x.sum) := by
  cases children with
  | nil => exact absurd rfl hne
  | cons c cs =>
    have hfe : feasibility (.orNode i d (c :: cs)) = orFeas (feasList (c :: cs)) := by
      show (if (c :: cs).isEmpty then FRes.err .AssessmentVectorMismatch
            else orFeas (feasList (c :: cs))) = orFeas (feasList (c :: cs))
      rfl
    cases as with
    | nil => simp [feasList] at hok
    | cons a t =>
      obtain ⟨pre, post, hsplit, hmin, hpre⟩ :=
        foldl_min_first_split FeasibilityAssessment.sum t a
      refine ⟨pre, _, post, hsplit, ?_, hmin, hpre⟩
      rw [hfe, hok, orFeas, unwrapAll_map_ok]
      rfl

/-- Witness for C1 at the OR test input of the repository: children with
vectors `[0,50]`, `[1,49]`, `[2,3]`; the third child (sum 5) is selected. -/
theorem or_node_selects_first_min_sum_witness :
    ∃ pre m post,
      ([⟨defnEqKn, [some 0, some 50]⟩, ⟨defnEqKn, [some 1, some 49]⟩,
        ⟨defnEqKn, [some 2, some 3]⟩] : List FeasibilityAssessment) = pre ++ m :: post ∧
      feasibility (.orNode 0 "or"
        [.leaf 1 "s1" ⟨defnEqKn, [some 0, some 50]⟩,
         .leaf 2 "s2" ⟨defnEqKn, [some 1, some 49]⟩,
         .leaf 3 "s3" ⟨defnEqKn, [some 2, some 3]⟩]) = .ok m ∧
      (∀ x ∈ ([⟨defnEqKn, [some 0, some 50]⟩, ⟨defnEqKn, [some 1, some 49]⟩,
        ⟨defnEqKn, [some 2, some 3]⟩] : List FeasibilityAssessment), m.sum ≤ x.sum) ∧
      (∀ x ∈ pre, m.sum < x.sum) :=
  or_node_selects_first_min_sum 0 "or" _ _ rfl (by simp)

theorem cwMaxVec_length (u v : List (Option Nat)) :
    (cwMaxVec u v).length = min u.length v.length := by
  simp [cwMaxVec]

/-- When all assessments share the schema `S` and have vectors of schema
length, the `reduce` with `component_wise_max(..).unwrap()` succeeds and
computes the plain left fold of `cwMaxVec`. -/
theorem cwReduce_eq_fold (S : FeasibilityCriteria) (rest : List FeasibilityAssessment) :
    ∀ a : FeasibilityAssessment, a.definition = S → a.assessments.length = S.length →
      (∀ b ∈ rest, b.assessments.length = S.length) →
      cwReduce a rest =
        some ⟨S, (rest.map (fun b => b.assessments)).foldl cwMaxVec a.assessments⟩ := by
  induction rest with
  | nil =>
    intro a hdef hlen _
    cases a with
    | mk adef avec =>
      simp only [cwReduce, List.map_nil, List.foldl_nil]
      simp only at hdef
      rw [hdef]
  | cons b t ih =>
    intro a hdef hlen hmem
    have hbl : b.assessments.length = S.length := hmem b (List.mem_cons_self b t)
    have hcw : a.component_wise_max b =
        .ok ⟨a.definition, cwMaxVec a.assessments b.assessments⟩ := by
      rw [FeasibilityAssessment.component_wise_max,
        if_neg (by rw [hlen, hbl]; simp), FeasibilityAssessment.new,
        if_neg (by rw [cwMaxVec_length, hlen, hbl, hdef]; simp)]
    simp only [cwReduce]
    rw [hcw]
    have := ih ⟨a.definition, cwMaxVec a.assessments b.assessments⟩
      hdef (by rw [cwMaxVec_length, hlen, hbl]; simp [hdef])
      (fun c hc => hmem c (List.mem_cons_of_mem b hc))
    simpa using this

/-- Claim C2: for an `AndNode` with at least one child, when every child's
feasibility succeeds (assessments `a0 :: rest`, in stored child order, all
built against schema `S` with schema-length vectors), `feasibility` succeeds
and is the left-to-right fold of the component-wise maximum. -/
theorem and_node_folds_component_wise_max (i : Nat) (d : String)
    (children : List FeasibleStep) (a0 : FeasibilityAssessment)
    (rest : List FeasibilityAssessment) (S : FeasibilityCriteria)
    (hok : feasList children = (a0 :: rest).map FRes.ok)
    (hdef : ∀ a ∈ a0 :: rest, a.definition = S)
    (hlen : ∀ a ∈ a0 :: rest, a.assessments.length = S.length) :
    feasibility (.andNode i d children) =
      .ok ⟨S, (rest.map (fun b => b.assessments)).foldl cwMaxVec a0.assessments⟩ := by
  cases children with
  | nil => simp [feasList] at hok
  | cons c cs =>
    have hfe : feasibility (.andNode i d (c :: cs)) = andFeas (feasList (c :: cs)) := rfl
    rw [hfe, hok, andFeas, anyPanicked_map_ok]
    simp only [Bool.false_eq_true, if_false, collectOks_map_ok]
    rw [cwReduce_eq_fold S rest a0 (hdef a0 (List.mem_cons_self a0 rest))
      (hlen a0 (List.mem_cons_self a0 rest))
      (fun b hb => hlen b (List.mem_cons_of_mem a0 hb))]

/-- Witness for C2 at the AND test input of the repository: child vectors
`[1,6,8]`, `[2,4,9]`, `[3,5,7]` yield `[3,6,9]` with sum 18. -/
theorem and_node_folds_component_wise_max_witness :
    feasibility (.andNode 0 "and"
      [.leaf 1 "l1" ⟨defnEqKnWO, [some 1, some 6, some 8]⟩,
       .leaf 2 "l2" ⟨defnEqKnWO, [some 2, some 4, some 9]⟩,
       .leaf 3 "l3" ⟨defnEqKnWO, [some 3, some 5, some 7]⟩]) =
      .ok ⟨defnEqKnWO, [some 3, some 6, some 9]⟩ ∧
    FeasibilityAssessment.sum ⟨defnEqKnWO, [some 3, some 6, some 9]⟩ = 18 := by
  constructor
  · have h := and_node_folds_component_wise_max 0 "and"
      [.leaf 1 "l1" ⟨defnEqKnWO, [some 1, some 6, some 8]⟩,
       .leaf 2 "l2" ⟨defnEqKnWO, [some 2, some 4, some 9]⟩,
       .leaf 3 "l3" ⟨defnEqKnWO, [some 3, some 5, some 7]⟩]
      ⟨defnEqKnWO, [some 1, some 6, some 8]⟩
      [⟨defnEqKnWO, [some 2, some 4, some 9]⟩, ⟨defnEqKnWO, [some 3, some 5, some 7]⟩]
      defnEqKnWO rfl (by decide) (by decide)
    exact h.trans (by decide)
  · decide

/-- Claim C7: parsing the three-line `"Break into house"` input (two leaf
lines indented four spaces, no trailing newline) against `[Eq, Kn]` returns
an `AndNode` titled `"Break into house"` whose children are exactly the two
leaves in line order, with `feasibility_value() = 9`; the final leaf is
committed and attached at end of stream. -/
theorem parse_house_input_and_node :
    parse houseInput defnEqKn = .ok houseArena 0 ∧
    extract houseArena 2 0 = some houseTree ∧
    houseTree = .andNode 0 "Break into house"
      [ .leaf 1 "Observe when people are away" ⟨defnEqKn, [some 1, some 6]⟩,
        .leaf 2 "Pick lock" ⟨defnEqKn, [some 3, some 5]⟩ ] ∧
    feasibility_value houseTree = some 9 :=
  ⟨by decide, rfl, rfl, by decide⟩

/-- Counterexample to claim C3 as stated: in `leakInput` the second leaf
line (`"    B; Kn=5"`) never mentions `Eq`, yet the leaf built for it holds
`Some 1` at the `Eq` position — the value committed on the first leaf's
line — instead of the absent entry the claim requires. -/
theorem leaf_vector_leak_cex :
    parse leakInput defnEqKn = .ok leakArena 0 ∧
    (leakArena.get? 2).bind (fun n => n.criteria) =
      some ⟨defnEqKn, [some 1, some 5]⟩ ∧
    (⟨defnEqKn, [some 1, some 5]⟩ : FeasibilityAssessment) ≠
      ⟨defnEqKn, [none, some 5]⟩ :=
  ⟨by decide, by decide, by decide⟩

theorem lookupAssoc_insertAssoc (m : List (String × Nat)) (k q : String) (v : Nat) :
    lookupAssoc (insertAssoc m k v) q = if q = k then some v else lookupAssoc m q := by
  induction m with
  | nil =>
    simp only [insertAssoc, lookupAssoc]
    by_cases hqk : q = k
    · simp [hqk]
    · have hkq : ¬ k = q := fun h => hqk h.symm
      simp [hqk, hkq]
  | cons kv rest ih =>
    obtain ⟨k', v'⟩ := kv
    simp only [insertAssoc]
    by_cases hk : k' = k
    · subst hk
      simp only [if_pos rfl, lookupAssoc]
      by_cases hq : q = k'
      · rw [if_pos hq.symm, if_pos hq]
      · have hkq : ¬ k' = q := fun h => hq h.symm
        rw [if_neg hkq, if_neg hq, if_neg hkq]
    · simp only [if_neg hk, lookupAssoc]
      by_cases hq : k' = q
      · have hqk : ¬ q = k := fun h => hk (hq.trans h)
        simp [hq, hqk]
      · simp [hq, ih]

theorem set_state_parsed (p : AttackTreeParser) (s : ParserState) :
    (set_state p s).parsed_assessments = p.parsed_assessments := by
  cases s <;> rfl

theorem attach_child_parsed {p : AttackTreeParser} {node : ArenaNode} {cur2 : Nat}
    {p' : AttackTreeParser} (h : attach_child p node cur2 = .ok p') :
    p'.parsed_assessments = p.parsed_assessments := by
  unfold attach_child at h
  split at h
  · cases h
  · split at h
    · cases h
    · cases h; rfl

theorem add_node_parsed {p : AttackTreeParser} {node : ArenaNode}
    {p' : AttackTreeParser} (h : add_node p node = .ok p') :
    p'.parsed_assessments = p.parsed_assessments := by
  unfold add_node at h
  split at h
  · cases h; rfl
  · split at h
    · cases h
    · split at h
      · cases h
      · exact attach_child_parsed h

theorem commit_assessment_parsed {p p' : AttackTreeParser}
    (h : commit_assessment p = .ok p') :
    ∃ v, p'.parsed_assessments =
      insertAssoc p.parsed_assessments (String.mk (trimChars p.assessment_title)) v := by
  unfold commit_assessment at h
  split at h
  · cases h
  · cases h; exact ⟨_, rfl⟩

/-- Across any single step of the machine, the accumulated assessment map
either stays unchanged or gains one committed pair — it is never cleared. -/
theorem step_parsed_shape {S : FeasibilityCriteria} {p p' : AttackTreeParser} {c : Char}
    (h : step S p c = .ok p') :
    p'.parsed_assessments = p.parsed_assessments ∨
    ∃ k v, p'.parsed_assessments = insertAssoc p.parsed_assessments k v := by
  unfold step at h
  split at h
  · -- InTitle
    split at h
    · cases h; exact Or.inl (set_state_parsed _ _)
    · cases h; exact Or.inl rfl
  · -- DeterminingNodeType
    split at h
    · split at h
      · cases h
      · rename_i q hq
        cases h
        have hqp := add_node_parsed hq
        exact Or.inl ((set_state_parsed _ _).trans hqp)
    · split at h
      · split at h
        · cases h
        · rename_i q hq
          cases h
          have hqp := add_node_parsed hq
          exact Or.inl ((set_state_parsed _ _).trans hqp)
      · split at h
        · cases h
          exact Or.inl (set_state_parsed _ _)
        · cases h; exact Or.inl rfl
  · -- SkipToLineEnd
    split at h
    · cases h; exact Or.inl (set_state_parsed _ _)
    · cases h; exact Or.inl rfl
  · -- DeterminingIndentationLevel
    split at h
    · cases h; exact Or.inl rfl
    · split at h
      · cases h; exact Or.inl (set_state_parsed _ _)
      · cases h; exact Or.inl rfl
  · -- InAssessmentName
    split at h
    · cases h; exact Or.inl (set_state_parsed _ _)
    · cases h; exact Or.inl rfl
  · -- InAssessmentValue
    split at h
    · split at h
      · cases h
      · rename_i p1 hp1
        cases h
        obtain ⟨v, hv⟩ := commit_assessment_parsed hp1
        exact Or.inr ⟨_, v, (set_state_parsed _ _).trans hv⟩
    · split at h
      · split at h
        · cases h
        · rename_i p1 hp1
          split at h
          · cases h
          · split at h
            · cases h
            · rename_i p2 hp2
              cases h
              obtain ⟨v, hv⟩ := commit_assessment_parsed hp1
              refine Or.inr ⟨String.mk (trimChars p.assessment_title), v, ?_⟩
              have hp2p := add_node_parsed hp2
              rw [set_state_parsed, hp2p]
              exact hv
      · cases h; exact Or.inl rfl

/-- Claim C3 (amended): a leaf built by the parser projects, at each schema
position, the parser's accumulated assessment map (`Some v` exactly when the
criterion's name is present with most recent committed value `v`, unknown
names dropped) — and that map accumulates across the whole parse: no step
removes an entry, so values committed on earlier leaf lines persist into
later leaves. -/
theorem leaf_vector_from_accumulated_map (p : AttackTreeParser)
    (S : FeasibilityCriteria) (c : Char) :
    build_leaf p S = .ok
      { id := p.next_id, kind := .leaf, description := String.mk p.title,
        parent := p.current_node, children := [],
        criteria := some ⟨S, S.map (fun cr => lookupAssoc p.parsed_assessments cr.name)⟩ } ∧
    (∀ p', step S p c = .ok p' → ∀ name,
      (lookupAssoc p.parsed_assessments name).isSome →
      (lookupAssoc p'.parsed_assessments name).isSome) := by
  constructor
  · have hnew : FeasibilityAssessment.new S
        (S.map (fun cr => lookupAssoc p.parsed_assessments cr.name)) =
        .ok ⟨S, S.map (fun cr => lookupAssoc p.parsed_assessments cr.name)⟩ := by
      rw [FeasibilityAssessment.new, if_neg (by simp)]
    unfold build_leaf
    rw [hnew]
  · intro p' h name hv
    rcases step_parsed_shape h with heq | ⟨k, v, heq⟩
    · rwa [heq]
    · rw [heq, lookupAssoc_insertAssoc]
      by_cases hnk : name = k
      · simp [hnk]
      · simpa [hnk] using hv

/-- Witness for C3's amended theorem: a parser state whose accumulated map
holds `Eq ↦ 1` (committed earlier) builds a leaf with `[Some 1, None]`
against `[Eq, Kn]`, and a step keeps the entry present. -/
theorem leaf_vector_from_accumulated_map_witness :
    build_leaf { AttackTreeParser.new with parsed_assessments := [("Eq", 1)] } defnEqKn =
      .ok { id := 0, kind := .leaf, description := "", parent := none, children := [],
            criteria := some ⟨defnEqKn, [some 1, none]⟩ } ∧
    (lookupAssoc ({ AttackTreeParser.new with
        parsed_assessments := [("Eq", 1)], state := .InTitle,
        title := ['x'] } : AttackTreeParser).parsed_assessments "Eq").isSome := by
  constructor
  · have h := (leaf_vector_from_accumulated_map
      { AttackTreeParser.new with parsed_assessments := [("Eq", 1)] } defnEqKn 'x').1
    exact h.trans rfl
  · exact (leaf_vector_from_accumulated_map
      { AttackTreeParser.new with parsed_assessments := [("Eq", 1)] } defnEqKn 'x').2
      { AttackTreeParser.new with
          parsed_assessments := [("Eq", 1)], state := .InTitle, title := ['x'] }
      rfl "Eq" (by decide)

theorem stepAll_append (S : FeasibilityCriteria) (p : AttackTreeParser) (xs ys : List Char) :
    stepAll S p (xs ++ ys) =
      match stepAll S p xs with
      | .error e => .error e
      | .ok q => stepAll S q ys := by
  induction xs generalizing p with
  | nil => rfl
  | cons c cs ih =>
    show stepAll S p (c :: (cs ++ ys)) = _
    simp only [stepAll]
    cases hstep : step S p c with
    | error e => rfl
    | ok q => exact ih q

theorem step_value_push {S : FeasibilityCriteria} {p : AttackTreeParser} {c : Char}
    (hst : p.state = .InAssessmentValue) (hc1 : c ≠ ',') (hc2 : c ≠ '\n') :
    step S p c = .ok { p with assessment_value := p.assessment_value ++ [c] } := by
  unfold step
  rw [hst]
  dsimp only
  rw [if_neg hc1, if_neg hc2]

theorem stepAll_value_accum (S : FeasibilityCriteria) (cs : List Char) :
    ∀ p : AttackTreeParser, p.state = .InAssessmentValue →
      (∀ c ∈ cs, c ≠ ',' ∧ c ≠ '\n') →
      stepAll S p cs = .ok { p with assessment_value := p.assessment_value ++ cs } := by
  induction cs with
  | nil =>
    intro p hst _
    simp [stepAll]
  | cons c cs' ih =>
    intro p hst hc
    have hcc := hc c (List.mem_cons_self c cs')
    simp only [stepAll]
    rw [step_value_push hst hcc.1 hcc.2]
    dsimp only
    rw [ih { p with assessment_value := p.assessment_value ++ [c] } hst
      (fun d hd => hc d (List.mem_cons_of_mem c hd))]
    simp [List.append_assoc]

theorem step_comma_bad {S : FeasibilityCriteria} {p : AttackTreeParser}
    (hst : p.state = .InAssessmentValue)
    (hbad : parseU32 p.assessment_value = none) :
    step S p ',' = .error (.syntaxError 1) := by
  unfold step
  rw [hst]
  dsimp only
  rw [if_pos rfl]
  unfold commit_assessment
  rw [hbad]

/-- Claim C9: any input whose first committed assessment value fails `u32`
parsing yields `SyntaxError` and no tree: for every value text `s` with no
separator characters that fails integer parsing, parsing
`"Break into house;  Kn=" ++ s ++ "," ++ rest` fails with `SyntaxError`
regardless of the rest of the input and of the schema. -/
theorem first_bad_value_syntax_error (s rest : List Char) (S : FeasibilityCriteria)
    (hbad : parseU32 s = none)
    (hs : ∀ c ∈ s, c ≠ ',' ∧ c ≠ '\n') :
    parse ("Break into house;  Kn=".toList ++ s ++ [','] ++ rest) S =
      .err (.SyntaxError 1) := by
  have hpre : stepAll S AttackTreeParser.new "Break into house;  Kn=".toList =
      .ok { AttackTreeParser.new with
              state := .InAssessmentValue,
              title := "Break into house".toList,
              assessment_title := ['K', 'n'],
              current_node_type := .Leaf } := rfl
  have hshape : "Break into house;  Kn=".toList ++ s ++ [','] ++ rest =
      "Break into house;  Kn=".toList ++ (s ++ (',' :: rest)) := by
    simp [List.append_assoc]
  unfold parse
  rw [hshape, stepAll_append, hpre]
  dsimp only
  rw [stepAll_append, stepAll_value_accum S s _ rfl hs]
  dsimp only
  simp only [stepAll]
  rw [step_comma_bad rfl (by simpa using hbad)]

/-- Witness for C9 at the claim's example: value text `5.1` in
`"Break into house;  Kn=5.1, Eq=3"`. -/
theorem first_bad_value_syntax_error_witness :
    parseU32 "5.1".toList = none ∧
    parse ("Break into house;  Kn=".toList ++ "5.1".toList ++ [','] ++ " Eq=3".toList)
      defnEqKn = .err (.SyntaxError 1) :=
  ⟨by decide,
   first_bad_value_syntax_error "5.1".toList " Eq=3".toList defnEqKn (by decide) (by decide)⟩

theorem step_blank_space {S : FeasibilityCriteria} {p : AttackTreeParser}
    (hst : p.state = .DeterminingIndentationLevel) :
    step S p ' ' = .ok { p with indentation_counter := p.indentation_counter + 1 } := by
  unfold step
  rw [hst]
  dsimp only
  rw [if_pos rfl]

theorem step_blank_newline {S : FeasibilityCriteria} {p : AttackTreeParser}
    (hst : p.state = .DeterminingIndentationLevel) :
    step S p '\n' = .ok (set_state p .DeterminingIndentationLevel) := by
  unfold step
  rw [hst]
  dsimp only
  rw [if_neg (by decide), if_pos rfl]

/-- Over a run of blanks (spaces and newlines) the machine stays in
`DeterminingIndentationLevel` and never places a node. -/
theorem stepAll_blank (S : FeasibilityCriteria) (cs : List Char) :
    ∀ p : AttackTreeParser, p.state = .DeterminingIndentationLevel →
      (∀ c ∈ cs, c = ' ' ∨ c = '\n') →
      ∃ p', stepAll S p cs = .ok p' ∧ p'.state = .DeterminingIndentationLevel ∧
        p'.current_node = p.current_node := by
  induction cs with
  | nil => intro p hst _; exact ⟨p, rfl, hst, rfl⟩
  | cons c cs' ih =>
    intro p hst hc
    rcases hc c (List.mem_cons_self c cs') with hsp | hnl
    · subst hsp
      simp only [stepAll]
      rw [step_blank_space hst]
      dsimp only
      exact ih { p with indentation_counter := p.indentation_counter + 1 } hst
        (fun d hd => hc d (List.mem_cons_of_mem _ hd))
    · subst hnl
      simp only [stepAll]
      rw [step_blank_newline hst]
      dsimp only
      exact ih (set_state p .DeterminingIndentationLevel) rfl
        (fun d hd => hc d (List.mem_cons_of_mem _ hd))

/-- Claim C10: on any input with no non-blank line (only spaces and
newlines, e.g. the empty string), `parse` neither returns a tree nor a
`ParseError`: the final `unwrap` of the never-set current-node option
panics. -/
theorem parse_blank_input_panics (t : List Char) (S : FeasibilityCriteria)
    (h : ∀ c ∈ t, c = ' ' ∨ c = '\n') :
    parse t S = .panicked := by
  obtain ⟨p', hrun, hst, hcur⟩ := stepAll_blank S t AttackTreeParser.new rfl h
  unfold parse
  rw [hrun]
  dsimp only
  have hfin : finishEOS S p' = .ok p' := by
    unfold finishEOS
    rw [hst]
  rw [hfin]
  dsimp only
  have hnone : p'.current_node = none := hcur
  rw [hnone]

/-- Witness for C10 at the empty input. -/
theorem parse_blank_input_panics_witness :
    parse [] defnEqKn = .panicked :=
  parse_blank_input_panics [] defnEqKn (by simp)
